import Mathlib

/-!
Verification of the ipasques recommendation engine (src/main.py).

The program normalizes a corpus of texts (preprocess_text, parallel_preprocess_text),
builds a tf-idf document-term matrix with document-frequency bounds
(build_tfidf_matrix, via sklearn's TfidfVectorizer), and computes for every
document the top-k most similar other documents by cosine similarity, processed
in row blocks (get_top_k_blocks).

Modelling conventions:
- similarity scores and tf-idf related constants are exact rationals
  (the Python floats in exact arithmetic);
- external resources (the nltk lemmatizer and stopword list) are parameters;
- external library routines are modelled by their documented contracts:
  numpy's argpartition/argsort pair by the structure TopKSpec (their tie
  behaviour is documented as unspecified), sklearn's vectorizer by its
  documented document-frequency pruning and its ValueError on an empty
  vocabulary, Python range() by pyRange;
- fallible code returns Except PyError; pool.map re-raises a worker exception,
  which List.mapM models;
- rational constants are written as explicit reduced fractions (Rat.mk') so
  that concrete runs of the model reduce inside the kernel.
-/

namespace IPasques

/-- Similarity scores and tf-idf weights, as exact rationals. -/
abbrev Score := ℚ

/-- Constant MIN_SCORE = 0.4 of main.py line 19, written as the reduced fraction 2/5. -/
def MIN_SCORE : Score := ⟨2, 5, by norm_num, by norm_num⟩

/-- Constant MIN_DF = 2 of main.py line 20 (an absolute document count). -/
def MIN_DF : Nat := 2

/-- Constant MAX_DF = 0.8 of main.py line 21 (a fraction of the corpus size), as 4/5. -/
def MAX_DF : Score := ⟨4, 5, by norm_num, by norm_num⟩

/-! ### Text normalization (main.py lines 56-72) -/

/-- Characters matched by the regex class \w (word characters): letters, digits and
underscore. The model covers the ASCII fragment; the source corpus is handled
character-for-character the same way. -/
def isWordChar (c : Char) : Bool := c.isAlphanum || c = '_'

/-- Whitespace, as recognized both by the regex class \s and by Python str.split(). -/
def isSpaceChar (c : Char) : Bool := c.isWhitespace

/-- Python str.lower(), character-wise (main.py line 57). -/
def pyLower (s : String) : String := String.mk (s.toList.map Char.toLower)

/-- Model of _NON_WORD_RE.sub("", txt) with _NON_WORD_RE = [^\w\s] (main.py lines 25, 58):
every character that is neither a word character nor whitespace is deleted. -/
def subNonWord (s : String) : String :=
  String.mk (s.toList.filter (fun c => isWordChar c || isSpaceChar c))

/-- Tokenizer worker: splits a character list at whitespace into maximal nonempty
tokens; cur accumulates the characters of the current token in reverse. -/
def splitWSAux : List Char → List Char → List String
  | [], cur => if cur.isEmpty then [] else [String.mk cur.reverse]
  | c :: cs, cur =>
    if isSpaceChar c then
      if cur.isEmpty then splitWSAux cs []
      else String.mk cur.reverse :: splitWSAux cs []
    else splitWSAux cs (c :: cur)

/-- Python str.split() with no argument (main.py line 59 and the vectorizer tokenizer of
line 81): split on whitespace runs, no empty tokens. -/
def pySplit (s : String) : List String := splitWSAux s.toList []

/-- Model of preprocess_text (main.py lines 56-64): lowercase, delete non-word
non-space characters, split on whitespace, keep tokens with len(t) > 2 that are not
stopwords, lemmatize them, and rejoin with single spaces. The nltk lemmatizer lem and
stopword list stop are external read-only resources, passed as parameters. -/
def preprocess_text (lem : String → String) (stop : List String) (txt : String) : String :=
  String.intercalate " "
    (((pySplit (subNonWord (pyLower txt))).filter
        (fun t => decide (2 < t.length) && !(stop.contains t))).map lem)

/-- Reference normalization pipeline, written step by step following the words of the
spec (section 4.1): lowercase; remove every character that is neither a word character
nor whitespace; split on whitespace into tokens; drop tokens of length at most 2; drop
stopword tokens; replace each remaining token with its lemma; rejoin with single
spaces. Compared against preprocess_text, which is translated from the source. -/
def normalize_ref (lem : String → String) (stop : List String) (txt : String) : String :=
  let lowered := pyLower txt
  let stripped := subNonWord lowered
  let tokens := pySplit stripped
  let longEnough := tokens.filter (fun t => decide (2 < t.length))
  let content := longEnough.filter (fun t => !(stop.contains t))
  let lemmas := content.map lem
  String.intercalate " " lemmas

/-- Exceptions the modelled Python code can raise: ValueError from range(..., 0)
(main.py line 96 would receive block_size = 0), sklearn's ValueError for an empty
fitted vocabulary (line 85), and an arbitrary failure inside per-document
normalization (lines 56-64, e.g. malformed text reaching the lemmatizer). -/
inductive PyError
  | rangeZeroStep
  | emptyVocabulary
  | normalizeFailure
deriving DecidableEq, Repr

/-- Fallible model of preprocess_text: the external lemmatizer call inside the list
comprehension (main.py lines 60-62) may raise. preprocess_text contains no exception
handler, so the first failure propagates out of the function; mapM models this. -/
def preprocess_textE (lem : String → Except PyError String) (stop : List String)
    (txt : String) : Except PyError String :=
  (((pySplit (subNonWord (pyLower txt))).filter
      (fun t => decide (2 < t.length) && !(stop.contains t))).mapM lem).map
    (String.intercalate " ")

/-- Model of parallel_preprocess_text (main.py lines 67-72): pool.map applies
preprocess_text to every text in order; multiprocessing.Pool.map re-raises a worker
exception in the parent, aborting the whole batch, and otherwise returns the results
index-aligned with the input. List.mapM has exactly this behaviour. -/
def parallel_preprocess_textE (lem : String → Except PyError String) (stop : List String)
    (texts : List String) : Except PyError (List String) :=
  texts.mapM (preprocess_textE lem stop)

/-- Infallible instance of the parallel normalization (every document normalizes
successfully): an index-aligned map of preprocess_text. -/
def parallel_preprocess_text (lem : String → String) (stop : List String)
    (texts : List String) : List String :=
  texts.map (preprocess_text lem stop)

/-- Output claimed by the spec for a batch with failing documents: each failing
document degrades to the empty string and the batch continues. -/
def degradedBatch (lem : String → Except PyError String) (stop : List String)
    (texts : List String) : List String :=
  texts.map (fun t => (preprocess_textE lem stop t).toOption.getD "")

/-! ### Vectorizer (main.py lines 75-88) -/

/-- Document frequency of term t over tokenized documents (sklearn counts the number of
documents containing the term at least once). -/
def docFreq (docs : List String) (t : String) : Nat :=
  (docs.filter (fun d => (pySplit d).contains t)).length

/-- The document-frequency band of TfidfVectorizer(min_df=MIN_DF, max_df=MAX_DF):
a term is kept when MIN_DF ≤ df and df ≤ MAX_DF * (number of documents). -/
def inDFBand (docs : List String) (t : String) : Bool :=
  decide (MIN_DF ≤ docFreq docs t) &&
    decide ((docFreq docs t : Score) ≤ MAX_DF * (docs.length : Score))

/-- Vocabulary fitted by TfidfVectorizer with tokenizer = str.split (main.py lines
79-84): the distinct corpus terms whose document frequency lies in the band. sklearn
stores it sorted alphabetically; the order is irrelevant to emptiness and to every
claim settled here. -/
def fitVocabulary (docs : List String) : List String :=
  ((docs.flatMap pySplit).dedup).filter (inDFBand docs)

/-- Number of occurrences of term t in document d (term frequency). -/
def termCount (d : String) (t : String) : Nat :=
  ((pySplit d).filter (fun u => u = t)).length

/-- Model of build_tfidf_matrix (main.py lines 75-88): preprocess all texts, then fit
the vectorizer. sklearn's fit_transform raises ValueError exactly when the fitted
vocabulary is empty ("empty vocabulary ..." when no term exists at all, "After
pruning, no terms remain ..." or "max_df corresponds to < documents than min_df" when
the bounds exclude every term); this is modelled as PyError.emptyVocabulary. The
returned matrix holds the raw term counts; the idf scaling and the L2 row
normalization multiply each row entry by strictly positive factors and play no part
in any claim about this function. -/
def build_tfidf_matrix (lem : String → String) (stop : List String)
    (texts : List String) : Except PyError (List String × List (List Nat)) :=
  let pre := parallel_preprocess_text lem stop texts
  let vocab := fitVocabulary pre
  if vocab.isEmpty then .error .emptyVocabulary
  else .ok (vocab, pre.map (fun d => vocab.map (fun t => termCount d t)))

/-! ### Per-row top-k selection (main.py lines 101-119) -/

/-- Candidate indices of one similarity row (main.py lines 105-107): all j < n with
score at least MIN_SCORE and j different from the row's own index, in ascending
order (Python enumerate order). -/
def candidatesOf (sims : Nat → Score) (n i : Nat) : List Nat :=
  (List.range n).filter (fun j => decide (MIN_SCORE ≤ sims j) && j != i)

/-- Insertion step of an insertion sort driven by a boolean comparison c: x is placed
before the first element y with c x y. -/
def insertByKey (c : Nat → Nat → Bool) (x : Nat) : List Nat → List Nat
  | [] => [x]
  | y :: ys => if c x y then x :: y :: ys else y :: insertByKey c x ys

/-- Insertion sort driven by c, consuming the input from the right so that each
element is inserted into the already sorted list of its successors. -/
def sortByKey (c : Nat → Nat → Bool) (l : List Nat) : List Nat :=
  l.foldr (insertByKey c) []

/-- Comparison modelling Python sorted(candidates, key=lambda j: sims[j], reverse=True)
(main.py line 116): Python's timsort is stable and reverse=True preserves the order of
equal keys, so an earlier element x stays before a later element y exactly when
key y ≤ key x. sortByKey applied to it computes the unique stable descending order. -/
def stableDescC (key : Nat → Score) (x y : Nat) : Bool := decide (key y ≤ key x)

/-- Stable descending sort by key: the model of Python sorted(..., reverse=True). -/
def sortStableDesc (key : Nat → Score) (l : List Nat) : List Nat :=
  sortByKey (stableDescC key) l

/-- Shape of the routine the code runs in the len(candidates) > k branch (main.py
lines 109-114): given the score row, the candidate list and k, return the chosen
candidate ids in output order. -/
abbrev SelFun := (Nat → Score) → List Nat → Nat → List Nat

/-- Contract of np.argpartition(-scores, k)[:k] followed by the permutation
np.argsort(-scores[top_idx]) (main.py lines 110-114), as documented by numpy:
argpartition (introselect) places some k largest-score candidates in the first k
positions with the order of elements inside each partition undefined, and argsort with
the default quicksort is not stable. Hence, on a duplicate-free candidate list with
k < length, the pair returns k of the candidates whose scores are collectively
maximal, in non-increasing score order; which of several boundary-tied candidates are
kept and the relative order of equal scores are unspecified. -/
structure TopKSpec (sel : SelFun) : Prop where
  length_eq : ∀ key l k, l.Nodup → k < l.length → (sel key l k).length = k
  sorted : ∀ key l k, l.Nodup → (sel key l k).Pairwise (fun a b => key b ≤ key a)
  split : ∀ key l k, l.Nodup → k < l.length →
    ∃ rest, (sel key l k ++ rest).Perm l ∧ ∀ a ∈ sel key l k, ∀ b ∈ rest, key b ≤ key a

/-- Chosen candidate ids of one row (main.py lines 108-118): when more than k
candidates qualify run the numpy routine sel, otherwise sort all candidates by
descending score with Python's stable sorted and truncate to k. -/
def chosenIds (sel : SelFun) (n k i : Nat) (sims : Nat → Score) : List Nat :=
  if k < (candidatesOf sims n i).length then sel sims (candidatesOf sims n i) k
  else (sortStableDesc sims (candidatesOf sims n i)).take k

/-- Per-row selection (main.py lines 105-119), parameterized by the numpy routine sel:
build the candidate list, choose the top-k ids, and pair each chosen id j with its
reported score sims[j] (line 119). -/
def topKRow (sel : SelFun) (n k i : Nat) (sims : Nat → Score) : List (Nat × Score) :=
  (chosenIds sel n k i sims).map (fun j => (j, sims j))

/-- Row i of the block similarity matrix after the sentinel write sims[i] = -1
(main.py line 103): the self-similarity entry is replaced by -1, every other entry is
the cosine similarity sim i j. -/
def sentinelRow (sim : Nat → Nat → Score) (i : Nat) : Nat → Score :=
  fun j => if j = i then -1 else sim i j

/-! ### Block iteration (main.py lines 91-122) -/

/-- Fuel-driven worker for pyRange (structural recursion so that concrete runs reduce
inside the kernel). -/
def pyRangeAux : Nat → Nat → Nat → Nat → List Nat
  | 0, _, _, _ => []
  | fuel+1, step, start, hi =>
    if start < hi then start :: pyRangeAux fuel step (start + step) hi else []

/-- Python range(start, hi, step) for a positive step: start, start+step, ... while
below hi. Fuel hi - start suffices because start grows by step ≥ 1 each iteration.
(range itself raises ValueError on step = 0; get_top_k_blocks_checked records that
case before ever building a range.) -/
def pyRange (step start hi : Nat) : List Nat := pyRangeAux (hi - start) step start hi

/-- Global row ids of the block starting at start: end = min(start + block_size, n)
and i = start + offset for offset below end - start (main.py lines 97-102). -/
def blockRows (n bs start : Nat) : List Nat :=
  (List.range (min (start + bs) n - start)).map (fun off => start + off)

/-- Model of get_top_k_blocks (main.py lines 91-122) on an n-document corpus whose
exact pairwise cosine similarities are sim: iterate the blocks range(0, n, block_size),
inside each block iterate the rows, and for row i apply the sentinel write followed by
the per-row top-k selection. The Python dict recs, filled in ascending key order, is
modelled as the association list of (document id, candidate list) pairs in insertion
order. Computing the similarity sub-matrix block-against-all (line 100) yields, in
exact arithmetic, exactly the rows sim i of the full similarity matrix, which is how
the block rows are read here. -/
def get_top_k_blocks (sel : SelFun) (sim : Nat → Nat → Score) (n k bs : Nat) :
    List (Nat × List (Nat × Score)) :=
  (pyRange bs 0 n).flatMap (fun start =>
    (blockRows n bs start).map (fun i => (i, topKRow sel n k i (sentinelRow sim i))))

/-- Call wrapper recording the only exception a malformed configuration triggers in
get_top_k_blocks: block_size = 0 makes range(0, n, 0) raise ValueError when the loop
header runs (main.py line 96). The source performs no other validation of k or
block_size and defines no ConfigurationError anywhere. -/
def get_top_k_blocks_checked (sel : SelFun) (sim : Nat → Nat → Score) (n k bs : Nat) :
    Except PyError (List (Nat × List (Nat × Score))) :=
  if bs = 0 then .error .rangeZeroStep else .ok (get_top_k_blocks sel sim n k bs)

/-! ### Concrete instances of the numpy selection contract -/

/-- Stable instance of the selection routine: stable descending sort then truncate.
Used to witness theorems quantified over TopKSpec. -/
def stdSel : SelFun := fun key l k => (sortStableDesc key l).take k

/-- Anti-stable comparison: ties are kept in reversed input order. -/
def antiC (key : Nat → Score) (x y : Nat) : Bool := decide (key y < key x)

/-- Anti-stable instance of the selection routine: also satisfies the numpy contract
TopKSpec, but orders equal scores by descending candidate id. -/
def antiSel : SelFun := fun key l k => (sortByKey (antiC key) l).take k

/-- Comparison realizing the ordering the spec prescribes: strictly descending score,
ties broken by ascending candidate id. -/
def refC (key : Nat → Score) (x y : Nat) : Bool :=
  decide (key y < key x) || (decide (key x = key y) && decide (x < y))

/-- Sort by descending score with ties broken by ascending id. -/
def refSort (key : Nat → Score) (l : List Nat) : List Nat := sortByKey (refC key) l

/-- Row output the spec prescribes (sections 4.5 and 8): the k highest-scoring
qualifying candidates (all of them when fewer than k qualify), ordered by
non-increasing score with ties broken by ascending candidate id. -/
def refRow (sims : Nat → Score) (n k i : Nat) : List (Nat × Score) :=
  ((refSort sims (candidatesOf sims n i)).take k).map (fun j => (j, sims j))

/-! ### Cosine similarity over the reals (for the numerical claim) -/

/-- Euclidean norm of a real vector. -/
noncomputable def l2norm {m : Nat} (u : Fin m → ℝ) : ℝ := Real.sqrt (∑ i, u i ^ 2)

/-- Cosine similarity as computed by sklearn's cosine_similarity: the dot product of
the L2-normalized rows, a row with zero norm being left as the zero vector (sklearn
replaces zero norms by 1 before dividing), so its similarity with anything is 0. -/
noncomputable def cosineSim {m : Nat} (u v : Fin m → ℝ) : ℝ :=
  if l2norm u = 0 ∨ l2norm v = 0 then 0
  else (∑ i, u i * v i) / (l2norm u * l2norm v)

/-! ### Stateful engine model (for the frame claim) -/

/-- Mutable stores the engine touches: the input document-term matrix (read to compute
similarities, modelled by its exact pairwise similarity rows) and the per-block
similarity buffer sims_block. cosine_similarity(block, matrix) allocates a fresh
output array on every call, so the buffer never aliases the matrix; the two fields
model that separation. -/
structure EngineState where
  mat : Nat → Nat → Score
  buf : Nat → Nat → Score

/-- Model of sims_block = cosine_similarity(block, matrix) (main.py line 100): the
buffer is overwritten with the block's similarity rows, computed from the matrix by
the routine cosRows; the matrix is only read. -/
def loadBlock (cosRows : (Nat → Nat → Score) → Nat → Nat → Score) (st : EngineState)
    (start : Nat) : EngineState :=
  { st with buf := fun off j => cosRows st.mat (start + off) j }

/-- Model of sims[i] = -1 (main.py line 103): the write targets entry (off, i) of the
buffer, not the matrix. -/
def setSentinel (st : EngineState) (off i : Nat) : EngineState :=
  { st with buf := fun a b => if a = off ∧ b = i then -1 else st.buf a b }

/-- One row of the block in the stateful model: apply the sentinel write, then read
the row back from the buffer for the selection. -/
def processRowSt (sel : SelFun) (n k start off : Nat) (st : EngineState) :
    EngineState × (Nat × List (Nat × Score)) :=
  let i := start + off
  let st1 := setSentinel st off i
  (st1, (i, topKRow sel n k i (fun j => st1.buf off j)))

/-- Fold step over the rows of one block: thread the state, append the row's output. -/
def rowStep (sel : SelFun) (n k start : Nat)
    (acc : EngineState × List (Nat × List (Nat × Score))) (off : Nat) :
    EngineState × List (Nat × List (Nat × Score)) :=
  let step := processRowSt sel n k start off acc.1
  (step.1, acc.2 ++ [step.2])

/-- One block in the stateful model: load the buffer from the matrix, then process the
rows in order, threading the state. -/
def processBlockSt (cosRows : (Nat → Nat → Score) → Nat → Nat → Score) (sel : SelFun)
    (n k bs start : Nat) (st : EngineState) :
    EngineState × List (Nat × List (Nat × Score)) :=
  (List.range (min (start + bs) n - start)).foldl (rowStep sel n k start)
    (loadBlock cosRows st start, [])

/-- Fold step over the blocks: thread the state, append the block's output. -/
def blockStep (cosRows : (Nat → Nat → Score) → Nat → Nat → Score) (sel : SelFun)
    (n k bs : Nat) (acc : EngineState × List (Nat × List (Nat × Score))) (start : Nat) :
    EngineState × List (Nat × List (Nat × Score)) :=
  let step := processBlockSt cosRows sel n k bs start acc.1
  (step.1, acc.2 ++ step.2)

/-- Stateful model of the whole of get_top_k_blocks: iterate the blocks, threading the
matrix and buffer stores, and accumulate the recommendation pairs. -/
def get_top_k_blocks_st (cosRows : (Nat → Nat → Score) → Nat → Nat → Score)
    (sel : SelFun) (n k bs : Nat) (st : EngineState) :
    EngineState × List (Nat × List (Nat × Score)) :=
  (pyRange bs 0 n).foldl (blockStep cosRows sel n k bs) (st, [])

/-! ### Concrete data for closed-form checks -/

/-- Strict order prescribed by the spec for one row: by descending score, ties by
ascending candidate id. -/
def tieLt (key : Nat → Score) (a b : Nat) : Prop :=
  key b < key a ∨ (key a = key b ∧ a < b)

/-- Constant similarity used in concrete checks: every pair scores 1, so every row has
only tied candidates. -/
def csim : Nat → Nat → Score := fun _ _ => 1

/-- A lemmatizer model that fails on one specific token, standing for a document whose
text the external normalization resources cannot process. -/
def lemFail : String → Except PyError String :=
  fun t => if t = "badword" then .error .normalizeFailure else .ok t

/-- The all-ones vector on one coordinate, a concrete non-negative tf-idf row. -/
def oneVec : Fin 1 → ℝ := fun _ => 1

/-- Everything the per-row selection guarantees on row i (the amended form of the
spec's per-row contract): at most k entries, every entry a candidate (below n,
distinct from i, scoring at least MIN_SCORE) reported with its similarity score,
non-increasing score order, dominance of the chosen scores over every candidate left
out, and, whenever at most k candidates qualify, exactly the spec's reference output
with ties broken by ascending id. -/
def RowSelectionOK (sel : SelFun) (sim : Nat → Nat → Score) (n k i : Nat) : Prop :=
  (topKRow sel n k i (sentinelRow sim i)).length ≤ k ∧
  (∀ p ∈ topKRow sel n k i (sentinelRow sim i),
    p.1 < n ∧ p.1 ≠ i ∧ MIN_SCORE ≤ p.2 ∧ p.2 = sentinelRow sim i p.1) ∧
  (topKRow sel n k i (sentinelRow sim i)).Pairwise (fun p q => q.2 ≤ p.2) ∧
  (∀ j ∈ candidatesOf (sentinelRow sim i) n i,
    j ∉ (topKRow sel n k i (sentinelRow sim i)).map Prod.fst →
    ∀ p ∈ topKRow sel n k i (sentinelRow sim i), sentinelRow sim i j ≤ p.2) ∧
  ((candidatesOf (sentinelRow sim i) n i).length ≤ k →
    topKRow sel n k i (sentinelRow sim i) = refRow (sentinelRow sim i) n k i)

/-! ### Properties of the insertion sorts -/

/-- Sanity: the explicit fraction MIN_SCORE is 2/5 = 0.4. -/
theorem MIN_SCORE_eq : MIN_SCORE = 2/5 := by
  rw [MIN_SCORE, Rat.mk'_eq_divInt, Rat.divInt_eq_div]; norm_num

/-- Sanity: the explicit fraction MAX_DF is 4/5 = 0.8. -/
theorem MAX_DF_eq : MAX_DF = 4/5 := by
  rw [MAX_DF, Rat.mk'_eq_divInt, Rat.divInt_eq_div]; norm_num

/-- Membership through one insertion step. -/
theorem mem_insertByKey (c : Nat → Nat → Bool) (x a : Nat) (l : List Nat) :
    a ∈ insertByKey c x l ↔ a = x ∨ a ∈ l := by
  induction l with
  | nil => simp [insertByKey]
  | cons y ys ih =>
    cases hc : c x y with
    | true => simp [insertByKey, hc]
    | false =>
      simp only [insertByKey, hc, Bool.false_eq_true, if_false, List.mem_cons, ih]
      tauto

/-- Inserting x permutes x onto the list. -/
theorem insertByKey_perm (c : Nat → Nat → Bool) (x : Nat) (l : List Nat) :
    (insertByKey c x l).Perm (x :: l) := by
  induction l with
  | nil => exact List.Perm.refl _
  | cons y ys ih =>
    cases hc : c x y with
    | true => simp [insertByKey, hc]
    | false =>
      simp only [insertByKey, hc, Bool.false_eq_true, if_false]
      exact (ih.cons y).trans (List.Perm.swap x y ys)

/-- The insertion sort permutes its input. -/
theorem sortByKey_perm (c : Nat → Nat → Bool) (l : List Nat) : (sortByKey c l).Perm l := by
  induction l with
  | nil => exact List.Perm.refl _
  | cons a t ih =>
    exact (insertByKey_perm c a (sortByKey c t)).trans (ih.cons a)

/-- Pairwise order is preserved by insertion when the comparison decides R against
every element of the list. -/
theorem pairwise_insertByKey {R : Nat → Nat → Prop}
    (htrans : ∀ a b d, R a b → R b d → R a d) (c : Nat → Nat → Bool) (x : Nat)
    (l : List Nat) (hl : l.Pairwise R)
    (hcx : ∀ y ∈ l, (c x y = true → R x y) ∧ (c x y = false → R y x)) :
    (insertByKey c x l).Pairwise R := by
  induction l with
  | nil => simp [insertByKey]
  | cons y ys ih =>
    rcases List.pairwise_cons.mp hl with ⟨hy, hys⟩
    cases hc : c x y with
    | true =>
      simp only [insertByKey, hc, if_true]
      refine List.pairwise_cons.mpr ⟨?_, hl⟩
      intro z hz
      rcases List.mem_cons.mp hz with rfl | hz'
      · exact (hcx z (by simp)).1 hc
      · exact htrans x y z ((hcx y (by simp)).1 hc) (hy z hz')
    | false =>
      simp only [insertByKey, hc, Bool.false_eq_true, if_false]
      refine List.pairwise_cons.mpr ⟨?_, ih hys (fun z hz => hcx z (by simp [hz]))⟩
      intro z hz
      rcases (mem_insertByKey c x z ys).mp hz with rfl | hz'
      · exact (hcx y (by simp)).2 hc
      · exact hy z hz'

/-- The insertion sort is pairwise ordered by R whenever the comparison decides R on
every pair of distinct input elements. -/
theorem pairwise_sortByKey {R : Nat → Nat → Prop}
    (htrans : ∀ a b d, R a b → R b d → R a d) (c : Nat → Nat → Bool)
    (l : List Nat) (hnd : l.Nodup)
    (hcl : ∀ x y, x ∈ l → y ∈ l → x ≠ y →
      (c x y = true → R x y) ∧ (c x y = false → R y x)) :
    (sortByKey c l).Pairwise R := by
  induction l with
  | nil => exact List.Pairwise.nil
  | cons a t ih =>
    have hna : a ∉ t := (List.nodup_cons.mp hnd).1
    have hndt : t.Nodup := (List.nodup_cons.mp hnd).2
    refine pairwise_insertByKey htrans c a (sortByKey c t)
      (ih hndt (fun x y hx hy => hcl x y (by simp [hx]) (by simp [hy]))) ?_
    intro y hy
    have hyt : y ∈ t := (sortByKey_perm c t).mem_iff.mp hy
    exact hcl a y (by simp) (by simp [hyt]) (fun h => hna (by rw [h]; exact hyt))

/-- Transitivity of the tie-breaking order. -/
theorem tieLt_trans (key : Nat → Score) :
    ∀ a b d, tieLt key a b → tieLt key b d → tieLt key a d := by
  rintro a b d (h1 | ⟨h1, h1'⟩) (h2 | ⟨h2, h2'⟩)
  · exact Or.inl (h2.trans h1)
  · exact Or.inl (h2 ▸ h1)
  · exact Or.inl (h1 ▸ h2)
  · exact Or.inr ⟨h1.trans h2, h1'.trans h2'⟩

/-- The tie-breaking order bounds scores. -/
theorem tieLt_le {key : Nat → Score} {a b : Nat} (h : tieLt key a b) : key b ≤ key a := by
  rcases h with h | ⟨h, _⟩
  · exact le_of_lt h
  · exact le_of_eq h.symm

/-- The stable descending sort is sorted by non-increasing key. -/
theorem sortStableDesc_pairwise (key : Nat → Score) (l : List Nat) (hnd : l.Nodup) :
    (sortStableDesc key l).Pairwise (fun a b => key b ≤ key a) := by
  show (sortByKey (stableDescC key) l).Pairwise (fun a b => key b ≤ key a)
  refine pairwise_sortByKey ?_ (stableDescC key) l hnd ?_
  · intro a b d h1 h2
    exact le_trans h2 h1
  intro x y _ _ _
  constructor
  · intro h
    simp only [stableDescC, decide_eq_true_eq] at h
    exact h
  · intro h
    simp only [stableDescC, decide_eq_false_iff_not] at h
    exact le_of_lt (lt_of_not_le h)

/-- The anti-stable descending sort is also sorted by non-increasing key. -/
theorem sortAnti_pairwise (key : Nat → Score) (l : List Nat) (hnd : l.Nodup) :
    (sortByKey (antiC key) l).Pairwise (fun a b => key b ≤ key a) := by
  refine pairwise_sortByKey ?_ (antiC key) l hnd ?_
  · intro a b d h1 h2
    exact le_trans h2 h1
  intro x y _ _ _
  constructor
  · intro h
    simp only [antiC, decide_eq_true_eq] at h
    exact le_of_lt h
  · intro h
    simp only [antiC, decide_eq_false_iff_not] at h
    exact le_of_not_lt h

/-- On an input listed in ascending id order, the stable descending sort is sorted by
the full tie-breaking order: stability turns equal scores into ascending ids. -/
theorem sortStableDesc_tie (key : Nat → Score) :
    ∀ l : List Nat, l.Pairwise (· < ·) → (sortStableDesc key l).Pairwise (tieLt key) := by
  intro l
  induction l with
  | nil => intro _; exact List.Pairwise.nil
  | cons a t ih =>
    intro hl
    rcases List.pairwise_cons.mp hl with ⟨ha, ht⟩
    refine pairwise_insertByKey (tieLt_trans key) (stableDescC key) a (sortByKey _ t)
      (ih ht) ?_
    intro y hy
    have hyt : y ∈ t := (sortByKey_perm _ t).mem_iff.mp hy
    have hay : a < y := ha y hyt
    constructor
    · intro h
      simp only [stableDescC, decide_eq_true_eq] at h
      rcases lt_or_eq_of_le h with h1 | h1
      · exact Or.inl h1
      · exact Or.inr ⟨h1.symm, hay⟩
    · intro h
      simp only [stableDescC, decide_eq_false_iff_not] at h
      exact Or.inl (lt_of_not_le h)

/-- The reference sort is sorted by the tie-breaking order on duplicate-free input. -/
theorem refSort_pairwise_tie (key : Nat → Score) (l : List Nat) (hnd : l.Nodup) :
    (refSort key l).Pairwise (tieLt key) := by
  refine pairwise_sortByKey (tieLt_trans key) (refC key) l hnd ?_
  intro x y _ _ hxy
  constructor
  · intro h
    have h' : key y < key x ∨ (key x = key y ∧ x < y) := by
      simpa [refC] using h
    exact h'
  · intro h
    have h' : ¬ key y < key x ∧ (key x = key y → ¬ x < y) := by
      simpa [refC, not_or, not_and] using h
    by_cases heq : key x = key y
    · refine Or.inr ⟨heq.symm, ?_⟩
      rcases Nat.lt_or_ge y x with hyx | hxy'
      · exact hyx
      · exact absurd (Nat.lt_of_le_of_ne hxy' hxy) (h'.2 heq)
    · exact Or.inl (lt_of_le_of_ne (le_of_not_lt h'.1) heq)

/-- On an ascending duplicate-free input the stable descending sort and the reference
sort agree: both are the unique list sorted by the tie-breaking order. -/
theorem sortStableDesc_eq_refSort (key : Nat → Score) (l : List Nat)
    (hl : l.Pairwise (· < ·)) : sortStableDesc key l = refSort key l := by
  have hnd : l.Nodup := hl.imp (fun h => Nat.ne_of_lt h)
  haveI : IsAntisymm Nat (tieLt key) := by
    constructor
    rintro a b (h1 | ⟨h1, h1'⟩) (h2 | ⟨h2, h2'⟩)
    · exact absurd h2 (lt_asymm h1)
    · exact absurd (h2 ▸ h1) (lt_irrefl _)
    · exact absurd (h1 ▸ h2) (lt_irrefl _)
    · exact absurd (h1'.trans h2') (Nat.lt_irrefl a)
  exact List.eq_of_perm_of_sorted
    ((sortByKey_perm _ l).trans (sortByKey_perm _ l).symm)
    (sortStableDesc_tie key l hl) (refSort_pairwise_tie key l hnd)

/-! ### Instances of the numpy selection contract -/

/-- Sort-then-truncate satisfies the selection contract whenever the comparison
decides the key order. -/
theorem takeSel_spec (c : (Nat → Score) → Nat → Nat → Bool)
    (hc : ∀ key x y, (c key x y = true → key y ≤ key x) ∧ (c key x y = false → key x ≤ key y)) :
    TopKSpec (fun key l k => (sortByKey (c key) l).take k) := by
  have hsorted : ∀ (key : Nat → Score) (l : List Nat), l.Nodup →
      (sortByKey (c key) l).Pairwise (fun a b => key b ≤ key a) := by
    intro key l hnd
    refine pairwise_sortByKey ?_ (c key) l hnd ?_
    · intro a b d h1 h2
      exact le_trans h2 h1
    · intro x y _ _ _
      exact ⟨(hc key x y).1, (hc key x y).2⟩
  constructor
  · intro key l k hnd hk
    have hlen : (sortByKey (c key) l).length = l.length := (sortByKey_perm _ l).length_eq
    rw [List.length_take, hlen]
    omega
  · intro key l k hnd
    exact List.Pairwise.sublist (List.take_sublist _ _) (hsorted key l hnd)
  · intro key l k hnd hk
    refine ⟨(sortByKey (c key) l).drop k, ?_, ?_⟩
    · rw [List.take_append_drop]
      exact sortByKey_perm _ l
    · have hp : ((sortByKey (c key) l).take k ++ (sortByKey (c key) l).drop k).Pairwise
          (fun a b => key b ≤ key a) := by
        rw [List.take_append_drop]
        exact hsorted key l hnd
      exact fun a ha b hb => (List.pairwise_append.mp hp).2.2 a ha b hb

/-- The stable instance satisfies the numpy contract. -/
theorem stdSel_spec : TopKSpec stdSel :=
  takeSel_spec stableDescC (by
    intro key x y
    constructor
    · intro h
      simpa [stableDescC] using h
    · intro h
      simp only [stableDescC, decide_eq_false_iff_not] at h
      exact le_of_lt (lt_of_not_le h))

/-- The anti-stable instance satisfies the numpy contract as well. -/
theorem antiSel_spec : TopKSpec antiSel :=
  takeSel_spec antiC (by
    intro key x y
    constructor
    · intro h
      simp only [antiC, decide_eq_true_eq] at h
      exact le_of_lt h
    · intro h
      simp only [antiC, decide_eq_false_iff_not] at h
      exact le_of_not_lt h)

/-! ### Properties of the candidate list and the chosen ids -/

/-- Membership in the candidate list of a row. -/
theorem mem_candidatesOf {sims : Nat → Score} {n i j : Nat} :
    j ∈ candidatesOf sims n i ↔ j < n ∧ MIN_SCORE ≤ sims j ∧ j ≠ i := by
  simp [candidatesOf, List.mem_filter, and_assoc]

/-- The candidate list is listed in ascending id order (enumerate order). -/
theorem candidatesOf_pairwise (sims : Nat → Score) (n i : Nat) :
    (candidatesOf sims n i).Pairwise (· < ·) :=
  (List.pairwise_lt_range n).filter _

/-- The candidate list has no duplicates. -/
theorem candidatesOf_nodup (sims : Nat → Score) (n i : Nat) :
    (candidatesOf sims n i).Nodup :=
  (candidatesOf_pairwise sims n i).imp (fun h => Nat.ne_of_lt h)

/-- Every chosen id is a candidate. -/
theorem chosenIds_subset {sel : SelFun} (hsel : TopKSpec sel) (sims : Nat → Score)
    (n k i : Nat) : ∀ j ∈ chosenIds sel n k i sims, j ∈ candidatesOf sims n i := by
  intro j hj
  unfold chosenIds at hj
  by_cases hk : k < (candidatesOf sims n i).length
  · rw [if_pos hk] at hj
    obtain ⟨rest, hperm, -⟩ := hsel.split sims _ k (candidatesOf_nodup sims n i) hk
    exact hperm.subset (List.mem_append_left rest hj)
  · rw [if_neg hk] at hj
    exact (sortByKey_perm _ _).subset (List.mem_of_mem_take hj)

/-- At most k ids are chosen. -/
theorem chosenIds_length_le {sel : SelFun} (hsel : TopKSpec sel) (sims : Nat → Score)
    (n k i : Nat) : (chosenIds sel n k i sims).length ≤ k := by
  unfold chosenIds
  by_cases hk : k < (candidatesOf sims n i).length
  · rw [if_pos hk, hsel.length_eq sims _ k (candidatesOf_nodup sims n i) hk]
  · rw [if_neg hk, List.length_take]
    exact min_le_left _ _

/-- The chosen ids are listed in non-increasing score order. -/
theorem chosenIds_sorted {sel : SelFun} (hsel : TopKSpec sel) (sims : Nat → Score)
    (n k i : Nat) : (chosenIds sel n k i sims).Pairwise (fun a b => sims b ≤ sims a) := by
  unfold chosenIds
  by_cases hk : k < (candidatesOf sims n i).length
  · rw [if_pos hk]
    exact hsel.sorted sims _ k (candidatesOf_nodup sims n i)
  · rw [if_neg hk]
    exact List.Pairwise.sublist (List.take_sublist _ _)
      (sortStableDesc_pairwise sims _ (candidatesOf_nodup sims n i))

/-- No id is chosen twice. -/
theorem chosenIds_nodup {sel : SelFun} (hsel : TopKSpec sel) (sims : Nat → Score)
    (n k i : Nat) : (chosenIds sel n k i sims).Nodup := by
  unfold chosenIds
  by_cases hk : k < (candidatesOf sims n i).length
  · rw [if_pos hk]
    obtain ⟨rest, hperm, -⟩ := hsel.split sims _ k (candidatesOf_nodup sims n i) hk
    exact List.Nodup.of_append_left (hperm.nodup_iff.mpr (candidatesOf_nodup sims n i))
  · rw [if_neg hk]
    exact List.Nodup.sublist (List.take_sublist _ _)
      ((sortByKey_perm _ _).nodup_iff.mpr (candidatesOf_nodup sims n i))

/-- Dominance: every candidate left out scores no higher than every chosen one. -/
theorem chosenIds_dominance {sel : SelFun} (hsel : TopKSpec sel) (sims : Nat → Score)
    (n k i : Nat) : ∀ j ∈ candidatesOf sims n i, j ∉ chosenIds sel n k i sims →
      ∀ a ∈ chosenIds sel n k i sims, sims j ≤ sims a := by
  intro j hj hnj a ha
  unfold chosenIds at hnj ha
  by_cases hk : k < (candidatesOf sims n i).length
  · rw [if_pos hk] at hnj ha
    obtain ⟨rest, hperm, hdom⟩ := hsel.split sims _ k (candidatesOf_nodup sims n i) hk
    have hj' : j ∈ sel sims (candidatesOf sims n i) k ++ rest := hperm.mem_iff.mpr hj
    rcases List.mem_append.mp hj' with hjs | hjr
    · exact absurd hjs hnj
    · exact hdom a ha j hjr
  · rw [if_neg hk] at hnj
    have hfull : (sortStableDesc sims (candidatesOf sims n i)).take k =
        sortStableDesc sims (candidatesOf sims n i) := by
      apply List.take_of_length_le
      have hlen : (sortStableDesc sims (candidatesOf sims n i)).length =
          (candidatesOf sims n i).length := (sortByKey_perm _ _).length_eq
      omega
    rw [hfull] at hnj
    exact absurd ((sortByKey_perm _ _).mem_iff.mpr hj) hnj

/-- When at most k candidates qualify, the chosen ids are all candidates in the
reference order: descending score with ties by ascending id. -/
theorem chosenIds_all {sel : SelFun} (sims : Nat → Score) (n k i : Nat)
    (hlen : (candidatesOf sims n i).length ≤ k) :
    chosenIds sel n k i sims = (refSort sims (candidatesOf sims n i)).take k := by
  unfold chosenIds
  rw [if_neg (not_lt.mpr hlen),
    sortStableDesc_eq_refSort sims _ (candidatesOf_pairwise sims n i)]

/-! ### Block iteration covers each row exactly once -/

/-- The fuel is irrelevant once it is at least hi - s (for positive step). -/
theorem pyRangeAux_congr (step : Nat) (hstep : 0 < step) :
    ∀ f₁ f₂ s hi, hi - s ≤ f₁ → hi - s ≤ f₂ →
      pyRangeAux f₁ step s hi = pyRangeAux f₂ step s hi := by
  intro f₁
  induction f₁ with
  | zero =>
    intro f₂ s hi h1 h2
    have hs : ¬ s < hi := by omega
    cases f₂ with
    | zero => rfl
    | succ f => simp [pyRangeAux, hs]
  | succ f ih =>
    intro f₂ s hi h1 h2
    by_cases hs : s < hi
    · cases f₂ with
      | zero => omega
      | succ f' =>
        simp only [pyRangeAux, hs, if_true]
        exact congrArg _ (ih f' (s + step) hi (by omega) (by omega))
    · cases f₂ with
      | zero => simp [pyRangeAux, hs]
      | succ f' => simp [pyRangeAux, hs]

/-- An empty Python range. -/
theorem pyRange_nil {step s hi : Nat} (h : hi ≤ s) : pyRange step s hi = [] := by
  unfold pyRange
  rw [Nat.sub_eq_zero_of_le h]
  rfl

/-- Unfolding one step of a Python range with positive step. -/
theorem pyRange_cons {step s hi : Nat} (hstep : 0 < step) (h : s < hi) :
    pyRange step s hi = s :: pyRange step (s + step) hi := by
  unfold pyRange
  have h1 : hi - s = (hi - s - 1) + 1 := by omega
  rw [h1]
  simp only [pyRangeAux, h, if_true]
  exact congrArg _ (pyRangeAux_congr step hstep _ _ (s + step) hi (by omega) (by omega))

/-- Concatenating the rows of all blocks from start s yields exactly the row ids
s, s+1, ..., n-1, for every positive block size. -/
theorem blockFlat_aux (bs n : Nat) (hbs : 0 < bs) :
    ∀ d s, n - s ≤ d →
      (pyRange bs s n).flatMap (blockRows n bs) =
        (List.range (n - s)).map (fun off => s + off) := by
  intro d
  induction d with
  | zero =>
    intro s h
    have hns : n ≤ s := by omega
    rw [pyRange_nil hns, Nat.sub_eq_zero_of_le hns]
    simp
  | succ d ih =>
    intro s h
    by_cases hs : s < n
    · rw [pyRange_cons hbs hs, List.flatMap_cons, ih (s + bs) (by omega)]
      unfold blockRows
      by_cases hend : s + bs ≤ n
      · rw [min_eq_left hend]
        have h1 : s + bs - s = bs := by omega
        have h2 : n - s = bs + (n - (s + bs)) := by omega
        rw [h1, h2, List.range_add, List.map_append, List.map_map]
        congr 1
        apply List.map_congr_left
        intro a _
        simp only [Function.comp_apply]
        omega
      · rw [min_eq_right (le_of_not_le hend)]
        have h0 : n - (s + bs) = 0 := by omega
        have h1 : n - s = n - s := rfl
        rw [h0]
        simp
    · rw [pyRange_nil (by omega), Nat.sub_eq_zero_of_le (by omega)]
      simp

/-- With a positive block size, get_top_k_blocks is the per-row computation mapped
over all document ids in order: the block decomposition only groups the work. -/
theorem get_top_k_blocks_eq (sel : SelFun) (sim : Nat → Nat → Score) (n k bs : Nat)
    (hbs : bs ≠ 0) :
    get_top_k_blocks sel sim n k bs =
      (List.range n).map (fun i => (i, topKRow sel n k i (sentinelRow sim i))) := by
  unfold get_top_k_blocks
  rw [← List.map_flatMap, blockFlat_aux bs n (Nat.pos_of_ne_zero hbs) n 0 (by omega),
    Nat.sub_zero, List.map_map]
  apply List.map_congr_left
  intro a _
  simp

/-! ### The stateful engine: frame and coherence -/

/-- Folding the rows of a block never writes the matrix, and produces exactly the
per-row outputs of the loaded row values R, each row reading its own buffer line
untouched by the sentinel writes of the other rows. -/
theorem foldl_rowStep (sel : SelFun) (n k start : Nat) (R : Nat → Nat → Score) :
    ∀ (offs : List Nat), offs.Nodup →
      ∀ (stc : EngineState) (acc : List (Nat × List (Nat × Score))),
        (∀ off ∈ offs, ∀ j, stc.buf off j = R (start + off) j) →
        (offs.foldl (rowStep sel n k start) (stc, acc)).1.mat = stc.mat ∧
        (offs.foldl (rowStep sel n k start) (stc, acc)).2 =
          acc ++ offs.map (fun off =>
            (start + off, topKRow sel n k (start + off) (sentinelRow R (start + off)))) := by
  intro offs
  induction offs with
  | nil =>
    intro _ stc acc _
    exact ⟨rfl, by simp⟩
  | cons off offs ih =>
    intro hnd stc acc hbuf
    have hoff : off ∉ offs := (List.nodup_cons.mp hnd).1
    have hnd' : offs.Nodup := (List.nodup_cons.mp hnd).2
    have hrow : (fun j => (setSentinel stc off (start + off)).buf off j) =
        sentinelRow R (start + off) := by
      funext j
      show (if off = off ∧ j = start + off then (-1 : Score) else stc.buf off j) =
        (if j = start + off then (-1 : Score) else R (start + off) j)
      by_cases hj : j = start + off
      · rw [if_pos ⟨rfl, hj⟩, if_pos hj]
      · rw [if_neg (fun h => hj h.2), if_neg hj]
        exact hbuf off (by simp) j
    have hstep : rowStep sel n k start (stc, acc) off =
        (setSentinel stc off (start + off),
          acc ++ [(start + off, topKRow sel n k (start + off)
            (sentinelRow R (start + off)))]) := by
      show (setSentinel stc off (start + off),
          acc ++ [(start + off, topKRow sel n k (start + off)
            (fun j => (setSentinel stc off (start + off)).buf off j))]) = _
      rw [hrow]
    have hbuf' : ∀ o ∈ offs, ∀ j,
        (setSentinel stc off (start + off)).buf o j = R (start + o) j := by
      intro o ho j
      show (if o = off ∧ j = start + off then (-1 : Score) else stc.buf o j) =
        R (start + o) j
      rw [if_neg (show ¬(o = off ∧ j = start + off) from fun h => hoff (h.1 ▸ ho))]
      exact hbuf o (by simp [ho]) j
    rw [List.foldl_cons, hstep]
    obtain ⟨hmat, hout⟩ := ih hnd' (setSentinel stc off (start + off)) _ hbuf'
    refine ⟨by rw [hmat]; rfl, ?_⟩
    rw [hout]
    simp

/-- One block in the stateful model: the matrix is untouched and the output rows are
the pure per-row computations on the similarity rows derived from the matrix. -/
theorem processBlockSt_spec (cosRows : (Nat → Nat → Score) → Nat → Nat → Score)
    (sel : SelFun) (n k bs start : Nat) (st : EngineState) :
    (processBlockSt cosRows sel n k bs start st).1.mat = st.mat ∧
    (processBlockSt cosRows sel n k bs start st).2 =
      (blockRows n bs start).map (fun i =>
        (i, topKRow sel n k i (sentinelRow (cosRows st.mat) i))) := by
  unfold processBlockSt
  have h := foldl_rowStep sel n k start (cosRows st.mat)
    (List.range (min (start + bs) n - start)) (List.nodup_range _)
    (loadBlock cosRows st start) [] (fun off _ j => rfl)
  refine ⟨by rw [h.1]; rfl, ?_⟩
  rw [h.2]
  unfold blockRows
  simp [List.map_map, Function.comp]

/-- Folding the blocks never writes the matrix and concatenates the block outputs. -/
theorem foldl_blockStep (cosRows : (Nat → Nat → Score) → Nat → Nat → Score)
    (sel : SelFun) (n k bs : Nat) :
    ∀ (starts : List Nat) (stc : EngineState) (acc : List (Nat × List (Nat × Score))),
      (starts.foldl (blockStep cosRows sel n k bs) (stc, acc)).1.mat = stc.mat ∧
      (starts.foldl (blockStep cosRows sel n k bs) (stc, acc)).2 =
        acc ++ starts.flatMap (fun start => (blockRows n bs start).map (fun i =>
          (i, topKRow sel n k i (sentinelRow (cosRows stc.mat) i)))) := by
  intro starts
  induction starts with
  | nil =>
    intro stc acc
    exact ⟨rfl, by simp⟩
  | cons s ss ih =>
    intro stc acc
    have hb := processBlockSt_spec cosRows sel n k bs s stc
    have hstep : blockStep cosRows sel n k bs (stc, acc) s =
        ((processBlockSt cosRows sel n k bs s stc).1,
          acc ++ (processBlockSt cosRows sel n k bs s stc).2) := rfl
    rw [List.foldl_cons, hstep]
    obtain ⟨hmat, hout⟩ := ih (processBlockSt cosRows sel n k bs s stc).1 _
    refine ⟨by rw [hmat, hb.1], ?_⟩
    rw [hout, hb.1, hb.2]
    simp

/-! ### Cosine similarity bounds -/

/-- Cauchy-Schwarz, in the square-root form the cosine bound needs. -/
theorem dot_le_norm_mul_norm {m : Nat} (u v : Fin m → ℝ)
    (hd : 0 ≤ ∑ i, u i * v i) : ∑ i, u i * v i ≤ l2norm u * l2norm v := by
  have h2 : (∑ i, u i * v i) ^ 2 ≤ (∑ i, u i ^ 2) * ∑ i, v i ^ 2 :=
    Finset.sum_mul_sq_le_sq_mul_sq Finset.univ u v
  have huu : (0 : ℝ) ≤ ∑ i, u i ^ 2 := Finset.sum_nonneg fun i _ => sq_nonneg _
  calc ∑ i, u i * v i = Real.sqrt ((∑ i, u i * v i) ^ 2) := (Real.sqrt_sq hd).symm
    _ ≤ Real.sqrt ((∑ i, u i ^ 2) * ∑ i, v i ^ 2) := Real.sqrt_le_sqrt h2
    _ = l2norm u * l2norm v := by rw [Real.sqrt_mul huu]; rfl

/-- Cosine similarity of entrywise non-negative vectors lies in the unit interval. -/
theorem cosineSim_mem_unit {m : Nat} (u v : Fin m → ℝ) (hu : ∀ i, 0 ≤ u i)
    (hv : ∀ i, 0 ≤ v i) : 0 ≤ cosineSim u v ∧ cosineSim u v ≤ 1 := by
  unfold cosineSim
  by_cases h0 : l2norm u = 0 ∨ l2norm v = 0
  · rw [if_pos h0]
    norm_num
  · rw [if_neg h0]
    push_neg at h0
    have hu0 : 0 < l2norm u := lt_of_le_of_ne (Real.sqrt_nonneg _) (Ne.symm h0.1)
    have hv0 : 0 < l2norm v := lt_of_le_of_ne (Real.sqrt_nonneg _) (Ne.symm h0.2)
    have hd : (0 : ℝ) ≤ ∑ i, u i * v i :=
      Finset.sum_nonneg fun i _ => mul_nonneg (hu i) (hv i)
    constructor
    · exact div_nonneg hd (le_of_lt (mul_pos hu0 hv0))
    · rw [div_le_one (mul_pos hu0 hv0)]
      exact dot_le_norm_mul_norm u v hd

/-! ### Settling the claims -/

/-- C6: for every input string (and any lemmatizer and stopword resources),
preprocess_text equals the spec's reference pipeline applied in order: lowercase;
remove every character that is neither a word character nor whitespace; split on
whitespace; drop tokens of length at most 2; drop stopword tokens; replace each
remaining token with its lemma; rejoin with single spaces. -/
theorem preprocess_matches_reference (lem : String → String) (stop : List String)
    (txt : String) : preprocess_text lem stop txt = normalize_ref lem stop txt := by
  unfold preprocess_text normalize_ref
  have h : ∀ toks : List String,
      toks.filter (fun t => decide (2 < t.length) && !(stop.contains t)) =
        (toks.filter (fun t => decide (2 < t.length))).filter
          (fun t => !(stop.contains t)) := by
    intro toks
    rw [List.filter_filter]
    apply List.filter_congr
    intro a _
    rw [Bool.and_comm]
  rw [h]

/-- C1 (counterexample): the claim that the per-row selection always returns the
k highest-scoring candidates ordered with ties broken by ascending candidate id fails:
the numpy argpartition/argsort pair is only constrained by TopKSpec, and the
anti-stable instance satisfies TopKSpec yet, on a row with two tied candidates and
k = 1, returns candidate 2 where the ascending tie-break demands candidate 1. -/
theorem topKRow_tie_break_refuted :
    ¬ (∀ sel : SelFun, TopKSpec sel → ∀ (sim : Nat → Nat → Score) (n k i : Nat),
        i < n → topKRow sel n k i (sentinelRow sim i) = refRow (sentinelRow sim i) n k i) := by
  intro h
  have hc := h antiSel antiSel_spec csim 3 1 0 (by decide)
  have h1 : topKRow antiSel 3 1 0 (sentinelRow csim 0) = [(2, 1)] := by decide
  have h2 : refRow (sentinelRow csim 0) 3 1 0 = [(1, 1)] := by decide
  rw [h1, h2] at hc
  exact absurd hc (by decide)

/-- C1 (amended): for every similarity row, the per-row selection returns at most k
entries, each a candidate index j < n with score at least MIN_SCORE and j different
from the row index, reported with its score, in non-increasing score order, the
chosen scores dominating every candidate left out; when at most k candidates qualify
the output is exactly all of them in the spec's order (non-increasing score, ties by
ascending id). When more than k qualify, the order among equal scores and the choice
among boundary-tied candidates are not fixed by the code (numpy argpartition/argsort). -/
theorem topKRow_selection_correct (sel : SelFun) (hsel : TopKSpec sel)
    (sim : Nat → Nat → Score) (n k i : Nat) : RowSelectionOK sel sim n k i := by
  unfold RowSelectionOK
  have hfst : (topKRow sel n k i (sentinelRow sim i)).map Prod.fst =
      chosenIds sel n k i (sentinelRow sim i) := by
    unfold topKRow
    rw [List.map_map,
      show (Prod.fst ∘ fun j => (j, sentinelRow sim i j)) = id from rfl, List.map_id]
  refine ⟨?_, ?_, ?_, ?_, ?_⟩
  · unfold topKRow
    rw [List.length_map]
    exact chosenIds_length_le hsel (sentinelRow sim i) n k i
  · intro p hp
    rcases List.mem_map.mp hp with ⟨j, hj, rfl⟩
    have hc := chosenIds_subset hsel (sentinelRow sim i) n k i j hj
    rcases mem_candidatesOf.mp hc with ⟨h1, h2, h3⟩
    exact ⟨h1, h3, h2, rfl⟩
  · unfold topKRow
    refine List.Pairwise.map _ ?_ (chosenIds_sorted hsel (sentinelRow sim i) n k i)
    intro a b hab
    exact hab
  · intro j hj hnj p hp
    rw [hfst] at hnj
    rcases List.mem_map.mp hp with ⟨a, ha, rfl⟩
    exact chosenIds_dominance hsel (sentinelRow sim i) n k i j hj hnj a ha
  · intro hlen
    unfold topKRow refRow
    rw [chosenIds_all (sentinelRow sim i) n k i hlen]

/-- C1 (witness): the amended per-row contract holds at the stable instance on a
concrete three-document row. -/
theorem topKRow_selection_correct_witness :
    TopKSpec stdSel ∧ RowSelectionOK stdSel csim 3 2 0 :=
  ⟨stdSel_spec, topKRow_selection_correct stdSel stdSel_spec csim 3 2 0⟩

/-- C2 (counterexample): calling the top-k computation with k = 0 is not rejected
with any error: on a two-document corpus it returns a normal mapping with empty
candidate lists. -/
theorem k_zero_not_rejected :
    get_top_k_blocks_checked stdSel csim 2 0 1 = .ok [(0, []), (1, [])] ∧
    ∀ e : PyError, get_top_k_blocks_checked stdSel csim 2 0 1 ≠ .error e := by
  constructor
  · rfl
  · intro e h
    rw [show get_top_k_blocks_checked stdSel csim 2 0 1 = .ok [(0, []), (1, [])]
      from rfl] at h
    exact Except.noConfusion h

/-- C2 (amended): the code validates nothing and defines no ConfigurationError.
With k = 0 and a positive block size, get_top_k_blocks returns a normal mapping
sending every document id to the empty candidate list; the only malformed-configuration
failure is the ValueError raised by range(0, n, 0) when block_size = 0, at the start of
the block loop. -/
theorem no_configuration_validation (sel : SelFun) (hsel : TopKSpec sel)
    (sim : Nat → Nat → Score) (n bs : Nat) :
    get_top_k_blocks_checked sel sim n 0 0 = .error .rangeZeroStep ∧
    (bs ≠ 0 → get_top_k_blocks_checked sel sim n 0 bs =
      .ok ((List.range n).map (fun i => (i, ([] : List (Nat × Score)))))) := by
  constructor
  · rfl
  · intro hbs
    unfold get_top_k_blocks_checked
    rw [if_neg hbs, get_top_k_blocks_eq sel sim n 0 bs hbs]
    congr 1
    apply List.map_congr_left
    intro i _
    have h := chosenIds_length_le hsel (sentinelRow sim i) n 0 i
    have hnil : chosenIds sel n 0 i (sentinelRow sim i) = [] :=
      List.length_eq_zero.mp (Nat.le_zero.mp h)
    unfold topKRow
    rw [hnil]
    rfl

/-- C2 (witness): the amended statement at a concrete two-document corpus. -/
theorem no_configuration_validation_witness :
    TopKSpec stdSel ∧
    (get_top_k_blocks_checked stdSel csim 2 0 0 = .error .rangeZeroStep ∧
      ((2 : Nat) ≠ 0 → get_top_k_blocks_checked stdSel csim 2 0 2 =
        .ok ((List.range 2).map (fun i => (i, ([] : List (Nat × Score))))))) :=
  ⟨stdSel_spec, no_configuration_validation stdSel stdSel_spec csim 2 2⟩

/-- C3: whenever the vocabulary resulting from fitting is empty -- in particular when
the corpus has zero documents, or when the document-frequency band excludes every
term -- the vectorization step fails with the configuration error (sklearn's
ValueError on an empty vocabulary, PyError.emptyVocabulary in the model). -/
theorem empty_vocabulary_fails (lem : String → String) (stop : List String)
    (texts : List String) :
    (fitVocabulary (parallel_preprocess_text lem stop texts) = [] →
      build_tfidf_matrix lem stop texts = .error .emptyVocabulary) ∧
    (texts = [] → build_tfidf_matrix lem stop texts = .error .emptyVocabulary) ∧
    ((∀ t, inDFBand (parallel_preprocess_text lem stop texts) t = false) →
      build_tfidf_matrix lem stop texts = .error .emptyVocabulary) := by
  have hmain : fitVocabulary (parallel_preprocess_text lem stop texts) = [] →
      build_tfidf_matrix lem stop texts = .error .emptyVocabulary := by
    intro h
    simp [build_tfidf_matrix, h]
  refine ⟨hmain, ?_, ?_⟩
  · intro h
    apply hmain
    subst h
    rfl
  · intro h
    apply hmain
    unfold fitVocabulary
    apply List.filter_eq_nil_iff.mpr
    intro a _
    simp [h a]

/-- C3 (witness): a one-document corpus, where every term has document frequency
1 < MIN_DF, is rejected with the empty-vocabulary error. -/
theorem empty_vocabulary_fails_witness :
    (∀ t, inDFBand (parallel_preprocess_text id [] ["abcd efgh"]) t = false) ∧
    build_tfidf_matrix id [] ["abcd efgh"] = .error .emptyVocabulary := by
  have hband : ∀ t, inDFBand (parallel_preprocess_text id [] ["abcd efgh"]) t = false := by
    intro t
    unfold inDFBand
    have hdf : docFreq (parallel_preprocess_text id [] ["abcd efgh"]) t ≤ 1 := by
      unfold docFreq
      calc (List.filter (fun d => (pySplit d).contains t)
              (parallel_preprocess_text id [] ["abcd efgh"])).length
          ≤ (parallel_preprocess_text id [] ["abcd efgh"]).length :=
            List.length_filter_le _ _
        _ = 1 := rfl
    have hmin : decide (MIN_DF ≤ docFreq (parallel_preprocess_text id [] ["abcd efgh"]) t)
        = false := by
      apply decide_eq_false
      unfold MIN_DF
      omega
    rw [hmin]
    rfl
  exact ⟨hband, (empty_vocabulary_fails id [] ["abcd efgh"]).2.2 hband⟩

/-- C4 (counterexample): a single document whose normalization fails does not degrade
to an empty normalized string: the failure aborts the whole batch. On the batch
["good", "badword"] with a lemmatizer failing on "badword", parallel preprocessing
returns the propagated error, not the claimed degraded batch ["good", ""]. -/
theorem normalization_failure_not_degraded :
    ¬ (∀ (lem : String → Except PyError String) (stop : List String)
        (texts : List String),
        parallel_preprocess_textE lem stop texts = .ok (degradedBatch lem stop texts)) := by
  intro h
  have hc := h lemFail [] ["good", "badword"]
  rw [show parallel_preprocess_textE lemFail [] ["good", "badword"] =
      .error .normalizeFailure from rfl] at hc
  exact Except.noConfusion hc

/-- C4 (amended): a document whose normalization fails aborts the batch:
preprocess_text has no exception handler and pool.map re-raises the worker exception,
so the whole parallel preprocessing call fails instead of degrading the document to
an empty string. -/
theorem normalization_failure_propagates (lem : String → Except PyError String)
    (stop : List String) (texts : List String) (t : String) (e : PyError)
    (hmem : t ∈ texts) (herr : preprocess_textE lem stop t = .error e) :
    ∃ e' : PyError, parallel_preprocess_textE lem stop texts = .error e' := by
  unfold parallel_preprocess_textE
  induction texts with
  | nil => cases hmem
  | cons a as ih =>
    rcases List.mem_cons.mp hmem with rfl | hmem'
    · refine ⟨e, ?_⟩
      rw [List.mapM_cons, herr]
      rfl
    · cases hfa : preprocess_textE lem stop a with
      | error e2 =>
        refine ⟨e2, ?_⟩
        rw [List.mapM_cons, hfa]
        rfl
      | ok v =>
        obtain ⟨e', he'⟩ := ih hmem'
        refine ⟨e', ?_⟩
        rw [List.mapM_cons, hfa]
        show (as.mapM (preprocess_textE lem stop)).bind _ = Except.error e'
        rw [he']
        rfl

/-- C4 (witness): the propagation statement at the concrete failing batch. -/
theorem normalization_failure_propagates_witness :
    ("badword" ∈ ["good", "badword"]) ∧
    (preprocess_textE lemFail [] "badword" = .error .normalizeFailure) ∧
    (∃ e' : PyError, parallel_preprocess_textE lemFail [] ["good", "badword"]
      = .error e') :=
  ⟨by decide, rfl,
    normalization_failure_propagates lemFail [] ["good", "badword"] "badword"
      .normalizeFailure (by decide) rfl⟩

/-- C5: every candidate list in the output has at most k entries, every reported
score is at least MIN_SCORE, no entry's id equals the source document's id, and no
candidate id occurs twice. -/
theorem recommendation_invariants (sel : SelFun) (hsel : TopKSpec sel)
    (sim : Nat → Nat → Score) (n k bs : Nat) (hbs : bs ≠ 0) (i : Nat)
    (l : List (Nat × Score)) (hmem : (i, l) ∈ get_top_k_blocks sel sim n k bs) :
    l.length ≤ k ∧ (∀ p ∈ l, MIN_SCORE ≤ p.2 ∧ p.1 ≠ i) ∧ (l.map Prod.fst).Nodup := by
  rw [get_top_k_blocks_eq sel sim n k bs hbs] at hmem
  rcases List.mem_map.mp hmem with ⟨i', _, heq⟩
  have hi : i' = i := congrArg Prod.fst heq
  have hl : l = topKRow sel n k i (sentinelRow sim i) := by
    have hsnd := congrArg Prod.snd heq
    rw [hi] at hsnd
    exact hsnd.symm
  subst hl
  have hfst : (topKRow sel n k i (sentinelRow sim i)).map Prod.fst =
      chosenIds sel n k i (sentinelRow sim i) := by
    unfold topKRow
    rw [List.map_map,
      show (Prod.fst ∘ fun j => (j, sentinelRow sim i j)) = id from rfl, List.map_id]
  refine ⟨?_, ?_, ?_⟩
  · unfold topKRow
    rw [List.length_map]
    exact chosenIds_length_le hsel (sentinelRow sim i) n k i
  · intro p hp
    rcases List.mem_map.mp hp with ⟨j, hj, rfl⟩
    have hc := chosenIds_subset hsel (sentinelRow sim i) n k i j hj
    rcases mem_candidatesOf.mp hc with ⟨_, h2, h3⟩
    exact ⟨h2, h3⟩
  · rw [hfst]
    exact chosenIds_nodup hsel (sentinelRow sim i) n k i

/-- C5 (witness): the invariants at a concrete two-document output row. -/
theorem recommendation_invariants_witness :
    TopKSpec stdSel ∧ ((1 : Nat) ≠ 0) ∧
    ((0, [((1 : Nat), (1 : Score))]) ∈ get_top_k_blocks stdSel csim 2 2 1) ∧
    ([((1 : Nat), (1 : Score))].length ≤ 2 ∧
      (∀ p ∈ [((1 : Nat), (1 : Score))], MIN_SCORE ≤ p.2 ∧ p.1 ≠ 0) ∧
      ([((1 : Nat), (1 : Score))].map Prod.fst).Nodup) :=
  ⟨stdSel_spec, by decide, by decide,
    recommendation_invariants stdSel stdSel_spec csim 2 2 1 (by decide) 0
      [(1, 1)] (by decide)⟩

/-- C7: for every matrix size and valid block size, the output mapping has exactly
the document ids 0, ..., n-1 as keys, in order, each exactly once -- documents with
empty candidate lists included. -/
theorem keys_cover_all_documents (sel : SelFun) (sim : Nat → Nat → Score)
    (n k bs : Nat) (hbs : bs ≠ 0) :
    ((get_top_k_blocks sel sim n k bs).map Prod.fst = List.range n) ∧
    ((get_top_k_blocks sel sim n k bs).map Prod.fst).Nodup := by
  have h : (get_top_k_blocks sel sim n k bs).map Prod.fst = List.range n := by
    rw [get_top_k_blocks_eq sel sim n k bs hbs, List.map_map,
      show (Prod.fst ∘ fun i => (i, topKRow sel n k i (sentinelRow sim i))) = id from rfl,
      List.map_id]
  exact ⟨h, h ▸ List.nodup_range n⟩

/-- C7 (witness): key coverage at a concrete three-document corpus with block size 2. -/
theorem keys_cover_all_documents_witness :
    ((2 : Nat) ≠ 0) ∧
    (((get_top_k_blocks stdSel csim 3 5 2).map Prod.fst = List.range 3) ∧
      ((get_top_k_blocks stdSel csim 3 5 2).map Prod.fst).Nodup) :=
  ⟨by decide, keys_cover_all_documents stdSel csim 3 5 2 (by decide)⟩

/-- C8: for a fixed corpus, configuration and selection routine, the block size does
not change the result: any two valid block sizes yield identical recommendation
maps. -/
theorem block_size_invariance (sel : SelFun) (sim : Nat → Nat → Score)
    (n k bs₁ bs₂ : Nat) (h₁ : bs₁ ≠ 0) (h₂ : bs₂ ≠ 0) :
    get_top_k_blocks sel sim n k bs₁ = get_top_k_blocks sel sim n k bs₂ := by
  rw [get_top_k_blocks_eq sel sim n k bs₁ h₁, get_top_k_blocks_eq sel sim n k bs₂ h₂]

/-- C8 (witness): block size 1 against block size n = 3 on a concrete corpus. -/
theorem block_size_invariance_witness :
    ((1 : Nat) ≠ 0) ∧ ((3 : Nat) ≠ 0) ∧
    get_top_k_blocks stdSel csim 3 2 1 = get_top_k_blocks stdSel csim 3 2 3 :=
  ⟨by decide, by decide, block_size_invariance stdSel csim 3 2 1 3 (by decide) (by decide)⟩

/-- C9: cosine similarity of non-negative tf-idf rows lies in [0, 1]; the sentinel -1
written at the self-similarity position is strictly below MIN_SCORE, so the self index
can never pass the score-threshold filter. -/
theorem cosine_bounds_and_sentinel :
    (∀ (m : Nat) (u v : Fin m → ℝ), (∀ i, 0 ≤ u i) → (∀ i, 0 ≤ v i) →
      0 ≤ cosineSim u v ∧ cosineSim u v ≤ 1) ∧
    ((-1 : Score) < MIN_SCORE) ∧
    (∀ (sim : Nat → Nat → Score) (n i : Nat),
      i ∉ (List.range n).filter (fun j => decide (MIN_SCORE ≤ sentinelRow sim i j))) := by
  refine ⟨fun m u v hu hv => cosineSim_mem_unit u v hu hv, by decide, ?_⟩
  intro sim n i hmem
  have h := (List.mem_filter.mp hmem).2
  have h' : MIN_SCORE ≤ sentinelRow sim i i := of_decide_eq_true h
  rw [show sentinelRow sim i i = -1 from if_pos rfl] at h'
  exact absurd h' (by decide)

/-- C9 (witness): the unit-interval bound applied to a concrete non-negative vector. -/
theorem cosine_bounds_and_sentinel_witness :
    (∀ i : Fin 1, (0 : ℝ) ≤ oneVec i) ∧
    (0 ≤ cosineSim oneVec oneVec ∧ cosineSim oneVec oneVec ≤ 1) :=
  ⟨fun _ => zero_le_one, cosine_bounds_and_sentinel.1 1 oneVec oneVec
    (fun _ => zero_le_one) (fun _ => zero_le_one)⟩

/-- C10: the engine leaves its input document-term matrix unchanged -- the sentinel
writes target only the freshly loaded per-block similarity buffer -- and the outputs
read from that buffer are exactly the pure block computation on the unchanged
matrix. -/
theorem matrix_unchanged (cosRows : (Nat → Nat → Score) → Nat → Nat → Score)
    (sel : SelFun) (n k bs : Nat) (st : EngineState) :
    (get_top_k_blocks_st cosRows sel n k bs st).1.mat = st.mat ∧
    (get_top_k_blocks_st cosRows sel n k bs st).2 =
      get_top_k_blocks sel (cosRows st.mat) n k bs := by
  have h := foldl_blockStep cosRows sel n k bs (pyRange bs 0 n) st []
  refine ⟨h.1, ?_⟩
  show ((pyRange bs 0 n).foldl (blockStep cosRows sel n k bs) (st, [])).2 = _
  rw [h.2]
  unfold get_top_k_blocks
  simp

end IPasques
